import Mathlib

/-!
# Verification of the reddit-puzzle pixel-canvas server

Shallow embedding of the server's data plane (Rust sources under
`src/server/src/` plus the client's RLE decoder in `src/client/src/main.rs`)
together with proofs of the specified properties.

Machine integers are modelled as `Nat` with explicit reduction modulo
`2 ^ 64` (usize) or `2 ^ 32` (u32) where the source relies on wrapping;
bytes are `Nat` values and bitwise operations use `Nat.land` / `Nat.lor` /
`Nat.xor` / `Nat.shiftLeft`, which agree with the machine operations on
in-range values.
-/

namespace RedditPuzzle

/-- `CANVAS_WIDTH` from `const_settings.rs` / `canvas.rs`. -/
def CANVAS_WIDTH : Nat := 1000

/-- `CANVAS_HEIGHT` from `const_settings.rs` / `canvas.rs`. -/
def CANVAS_HEIGHT : Nat := 1000

/-- `CANVAS_SIZE = CANVAS_WIDTH * CANVAS_HEIGHT` from `canvas.rs`. -/
def CANVAS_SIZE : Nat := CANVAS_WIDTH * CANVAS_HEIGHT

/-- `SPSC_CAPACITY` from `const_settings.rs`. -/
def SPSC_CAPACITY : Nat := 1024

/-- `COOLDOWN_ARRAY_LEN` from `cooldown.rs`. -/
def COOLDOWN_ARRAY_LEN : Nat := 1024

/-- `TIMING_WHEEL_TICKS` from `const_settings.rs`. -/
def TIMING_WHEEL_TICKS : Nat := 300

/-- One past the maximal `usize` value: wrapping arithmetic reduces mod this. -/
def USIZE_MOD : Nat := 2 ^ 64

/-- One past the maximal `u32` value. -/
def U32_MOD : Nat := 2 ^ 32

/-- All 64 bits set; `!x` on a `u64` value `x < 2^64` equals `U64_MASK ^^^ x`. -/
def U64_MASK : Nat := 2 ^ 64 - 1

/-! ## RLE codec

`rle_compress` is the scalar path of `rle_compress` in `master.rs`
(lines 16-81 with the `target_arch = "x86_64"` SIMD block skipped);
`rle_decompress` is the client decoder in `client/src/main.rs` (lines 36-51).
Byte slices become `List Nat`; the destination buffer of the decoder is
replaced by its capacity `cap`, and the bytes written to it are returned.
-/

/-- The inner scalar loop of `rle_compress`
(`while src_idx < len && src[src_idx] == color && count < 255`):
extends the current run through `l`, returning the final count and the
unconsumed remainder of the input. -/
def rleRun (color : Nat) : Nat → List Nat → Nat × List Nat
  | count, [] => (count, [])
  | count, b :: rest =>
    if b = color ∧ count < 255 then rleRun color (count + 1) rest
    else (count, b :: rest)

theorem rleRun_snd_length_le (color : Nat) :
    ∀ (count : Nat) (l : List Nat), (rleRun color count l).2.length ≤ l.length := by
  intro count l
  induction l generalizing count with
  | nil => simp [rleRun]
  | cons b rest ih =>
    by_cases h : b = color ∧ count < 255
    · simp only [rleRun, if_pos h]
      exact Nat.le_trans (ih (count + 1)) (Nat.le_succ _)
    · simp [rleRun, if_neg h]

/-- Scalar `rle_compress` from `master.rs`: emits `(count, value)` byte pairs,
maximum run length 255.  The destination is returned as a list (the Rust code
writes the pairs into a caller-supplied buffer and returns the length). -/
def rle_compress : List Nat → List Nat
  | [] => []
  | b :: rest =>
    let r := rleRun b 1 rest
    r.1 :: b :: rle_compress r.2
termination_by l => l.length
decreasing_by
  simp only [List.length_cons]
  exact Nat.lt_succ_of_le (rleRun_snd_length_le b 1 rest)

/-- `rle_decompress` from `client/src/main.rs`: reads `(count, color)` pairs
while two bytes remain, writing `color` `count` times but only while the
destination index is below the capacity `cap`.  Returns the written bytes
(the Rust code returns their number). -/
def rle_decompress : List Nat → Nat → List Nat
  | count :: color :: rest, cap =>
    List.replicate (min count cap) color ++ rle_decompress rest (cap - min count cap)
  | _, _ => []

/-- A successful `rleRun` consumed a run of `color` of length `count - start`:
the input was that run followed by the returned remainder. -/
theorem rleRun_spec (color : Nat) :
    ∀ (count : Nat) (l : List Nat), count ≤ 255 →
      count ≤ (rleRun color count l).1 ∧ (rleRun color count l).1 ≤ 255 ∧
      l = List.replicate ((rleRun color count l).1 - count) color ++ (rleRun color count l).2 := by
  intro count l
  induction l generalizing count with
  | nil => intro h; simp [rleRun, h]
  | cons b rest ih =>
    intro h
    by_cases hb : b = color ∧ count < 255
    · simp only [rleRun, if_pos hb]
      obtain ⟨h1, h2, h3⟩ := ih (count + 1) hb.2
      refine ⟨Nat.le_trans (Nat.le_succ _) h1, h2, ?_⟩
      have hcount : (rleRun color (count + 1) rest).1 - count =
          ((rleRun color (count + 1) rest).1 - (count + 1)) + 1 := by omega
      rw [hcount, List.replicate_succ, hb.1]
      conv_lhs => rw [h3]
      simp
    · simp [rleRun, if_neg hb, h]

theorem rle_roundtrip_aux :
    ∀ (n : Nat) (s : List Nat), s.length ≤ n → ∀ (cap : Nat), s.length ≤ cap →
      rle_decompress (rle_compress s) cap = s := by
  intro n
  induction n with
  | zero =>
    intro s hs cap _
    have : s = [] := List.eq_nil_of_length_eq_zero (Nat.le_zero.mp hs)
    subst this
    simp [rle_compress, rle_decompress]
  | succ n ih =>
    intro s hs cap hcap
    match s with
    | [] => simp [rle_compress, rle_decompress]
    | b :: rest =>
      obtain ⟨h1, h2, h3⟩ := rleRun_spec b 1 rest (by omega)
      have hunfold : rle_compress (b :: rest) =
          (rleRun b 1 rest).1 :: b :: rle_compress (rleRun b 1 rest).2 := by
        rw [rle_compress]
      have hlen : rest.length = ((rleRun b 1 rest).1 - 1) + (rleRun b 1 rest).2.length := by
        conv_lhs => rw [h3]
        simp
      have hrest : (rleRun b 1 rest).2.length ≤ n := by
        simp only [List.length_cons] at hs
        omega
      have hcap' : (rleRun b 1 rest).1 ≤ cap := by
        simp only [List.length_cons] at hcap
        omega
      have hmin : min (rleRun b 1 rest).1 cap = (rleRun b 1 rest).1 :=
        Nat.min_eq_left hcap'
      rw [hunfold]
      show List.replicate (min (rleRun b 1 rest).1 cap) b ++
          rle_decompress (rle_compress (rleRun b 1 rest).2)
            (cap - min (rleRun b 1 rest).1 cap) = b :: rest
      rw [hmin, ih (rleRun b 1 rest).2 hrest (cap - (rleRun b 1 rest).1)
        (by simp only [List.length_cons] at hcap; omega)]
      conv_lhs => rw [show (rleRun b 1 rest).1 = ((rleRun b 1 rest).1 - 1) + 1 from by omega]
      rw [List.replicate_succ]
      simp only [List.cons_append, List.cons.injEq, true_and]
      conv_rhs => rw [h3]

/-- Round trip: decompressing the compression of `s` with capacity `cap ≥ |s|`
recovers `s` exactly. -/
theorem rle_decompress_rle_compress (s : List Nat) (cap : Nat) (hcap : s.length ≤ cap) :
    rle_decompress (rle_compress s) cap = s :=
  rle_roundtrip_aux s.length s (Nat.le_refl _) cap hcap

/-! ## SIMD-accelerated run detection

The x86_64 block of `rle_compress` (master.rs lines 30-69) accelerates the
equal-run scan with 32-byte (AVX2) or 16-byte (SSE2) compare-and-mask steps.
`_mm*_cmpeq_epi8` + `movemask` produce a bitmask whose bit `i` is set iff
byte `i` of the chunk equals `color`; a full mask advances by the lane width,
otherwise `(!mask).trailing_zeros()` — the length of the chunk's prefix of
bytes equal to `color`, modelled by `prefixEqLen` — is added and the loop
breaks to the scalar mop-up loop. -/

/-- Length of the longest prefix of `l` whose elements all equal `color`
(the value `(!mask).trailing_zeros()` computes on a chunk). -/
def prefixEqLen (color : Nat) : List Nat → Nat
  | [] => 0
  | b :: rest => if b = color then prefixEqLen color rest + 1 else 0

theorem prefixEqLen_le (color : Nat) : ∀ (l : List Nat), prefixEqLen color l ≤ l.length := by
  intro l
  induction l with
  | nil => simp [prefixEqLen]
  | cons b rest ih =>
    by_cases h : b = color
    · simp only [prefixEqLen, if_pos h, List.length_cons]
      omega
    · simp [prefixEqLen, if_neg h]

theorem take_prefixEqLen (color : Nat) :
    ∀ (l : List Nat), l.take (prefixEqLen color l) =
      List.replicate (prefixEqLen color l) color := by
  intro l
  induction l with
  | nil => simp [prefixEqLen]
  | cons b rest ih =>
    by_cases h : b = color
    · simp [prefixEqLen, if_pos h, List.replicate_succ, h, ih]
    · simp [prefixEqLen, if_neg h]

/-- The SIMD while-loop of `rle_compress` with lane width `W`
(`while src_idx + W <= len && count + W <= 255`): consumes whole chunks of
bytes equal to `color`, or the equal prefix of the first non-uniform chunk,
then stops.  Returns the updated count and the unconsumed input. -/
def simdLoop (W : Nat) (hW : 0 < W) (color : Nat) (count : Nat) (l : List Nat) :
    Nat × List Nat :=
  if h : W ≤ l.length ∧ count + W ≤ 255 then
    if (l.take W).all (fun b => b == color) then
      simdLoop W hW color (count + W) (l.drop W)
    else
      (count + prefixEqLen color (l.take W), l.drop (prefixEqLen color (l.take W)))
  else (count, l)
termination_by l.length
decreasing_by
  simp only [List.length_drop]
  omega

/-- Extending a run through `k` copies of `color` advances the scalar loop
by exactly `k` while the count budget allows it. -/
theorem rleRun_replicate (color : Nat) :
    ∀ (k count : Nat) (rest : List Nat), count + k ≤ 255 →
      rleRun color count (List.replicate k color ++ rest) = rleRun color (count + k) rest := by
  intro k
  induction k with
  | zero => intro count rest _; simp
  | succ k ih =>
    intro count rest h
    rw [List.replicate_succ, List.cons_append]
    show rleRun color count (color :: (List.replicate k color ++ rest)) = _
    rw [rleRun, if_pos ⟨rfl, by omega⟩, ih (count + 1) rest (by omega)]
    congr 1
    omega

theorem simdLoop_rleRun_aux (W : Nat) (hW : 0 < W) (color : Nat) :
    ∀ (n count : Nat) (l : List Nat), l.length ≤ n →
      rleRun color (simdLoop W hW color count l).1 (simdLoop W hW color count l).2 =
        rleRun color count l := by
  intro n
  induction n with
  | zero =>
    intro count l hl
    have : l = [] := List.eq_nil_of_length_eq_zero (Nat.le_zero.mp hl)
    subst this
    rw [simdLoop, dif_neg (by simp; omega)]
  | succ n ih =>
    intro count l hl
    rw [simdLoop]
    by_cases h : W ≤ l.length ∧ count + W ≤ 255
    · rw [dif_pos h]
      by_cases hall : (l.take W).all (fun b => b == color)
      · rw [if_pos hall]
        have hWlen : (l.take W).length = W := by
          rw [List.length_take]
          omega
        have htake : l.take W = List.replicate W color := by
          refine List.eq_replicate_iff.mpr ⟨hWlen, ?_⟩
          intro b hb
          have := List.all_eq_true.mp hall b hb
          exact eq_of_beq this
        have hdecomp : l = List.replicate W color ++ l.drop W := by
          conv_lhs => rw [← List.take_append_drop W l]
          rw [htake]
        have hstep : rleRun color count l = rleRun color (count + W) (l.drop W) := by
          conv_lhs => rw [hdecomp]
          exact rleRun_replicate color W count (l.drop W) h.2
        rw [hstep]
        exact ih (count + W) (l.drop W) (by simp [List.length_drop]; omega)
      · rw [if_neg hall]
        have hm : prefixEqLen color (l.take W) ≤ W := by
          have := prefixEqLen_le color (l.take W)
          rw [List.length_take] at this
          omega
        have htakem : l.take (prefixEqLen color (l.take W)) =
            List.replicate (prefixEqLen color (l.take W)) color := by
          have h1 : l.take (prefixEqLen color (l.take W)) =
              (l.take W).take (prefixEqLen color (l.take W)) := by
            rw [List.take_take, Nat.min_eq_left hm]
          rw [h1, take_prefixEqLen]
        have hdecomp : l = List.replicate (prefixEqLen color (l.take W)) color ++
            l.drop (prefixEqLen color (l.take W)) := by
          conv_lhs => rw [← List.take_append_drop (prefixEqLen color (l.take W)) l]
          rw [htakem]
        conv_rhs => rw [hdecomp]
        exact (rleRun_replicate color (prefixEqLen color (l.take W)) count _ (by omega)).symm
    · rw [dif_neg h]

/-- Running the scalar mop-up loop after `simdLoop` gives exactly the scalar
loop's result on the original input. -/
theorem simdLoop_rleRun (W : Nat) (hW : 0 < W) (color count : Nat) (l : List Nat) :
    rleRun color (simdLoop W hW color count l).1 (simdLoop W hW color count l).2 =
      rleRun color count l :=
  simdLoop_rleRun_aux W hW color l.length count l (Nat.le_refl _)

theorem simdLoop_snd_length_le (W : Nat) (hW : 0 < W) (color : Nat) :
    ∀ (count : Nat) (l : List Nat), (simdLoop W hW color count l).2.length ≤ l.length := by
  have haux : ∀ (n count : Nat) (l : List Nat), l.length ≤ n →
      (simdLoop W hW color count l).2.length ≤ l.length := by
    intro n
    induction n with
    | zero =>
      intro count l hl
      have : l = [] := List.eq_nil_of_length_eq_zero (Nat.le_zero.mp hl)
      subst this
      rw [simdLoop, dif_neg (by simp; omega)]
    | succ n ih =>
      intro count l hl
      rw [simdLoop]
      by_cases h : W ≤ l.length ∧ count + W ≤ 255
      · rw [dif_pos h]
        by_cases hall : (l.take W).all (fun b => b == color)
        · rw [if_pos hall]
          have := ih (count + W) (l.drop W) (by simp [List.length_drop]; omega)
          simp only [List.length_drop] at this
          omega
        · rw [if_neg hall]
          simp [List.length_drop]
      · rw [dif_neg h]
  intro count l
  exact haux l.length count l (Nat.le_refl _)

/-- `rle_compress` with the SIMD fast path of lane width `W` enabled:
each run starts with the SIMD loop and finishes with the scalar loop. -/
def rle_compress_simd (W : Nat) (hW : 0 < W) : List Nat → List Nat
  | [] => []
  | b :: rest =>
    let r1 := simdLoop W hW b 1 rest
    let r := rleRun b r1.1 r1.2
    r.1 :: b :: rle_compress_simd W hW r.2
termination_by l => l.length
decreasing_by
  simp only [List.length_cons]
  exact Nat.lt_succ_of_le (Nat.le_trans (rleRun_snd_length_le b _ _)
    (simdLoop_snd_length_le W hW b 1 rest))

/-- The AVX2 path of `rle_compress` (master.rs lines 32-49): 32-byte chunks. -/
def rle_compress_avx2 : List Nat → List Nat :=
  rle_compress_simd 32 (by norm_num)

/-- The SSE2 path of `rle_compress` (master.rs lines 50-68): 16-byte chunks. -/
def rle_compress_sse2 : List Nat → List Nat :=
  rle_compress_simd 16 (by norm_num)

theorem rle_compress_simd_eq_aux (W : Nat) (hW : 0 < W) :
    ∀ (n : Nat) (s : List Nat), s.length ≤ n →
      rle_compress_simd W hW s = rle_compress s := by
  intro n
  induction n with
  | zero =>
    intro s hs
    have : s = [] := List.eq_nil_of_length_eq_zero (Nat.le_zero.mp hs)
    subst this
    rw [rle_compress_simd, rle_compress]
  | succ n ih =>
    intro s hs
    match s with
    | [] => rw [rle_compress_simd, rle_compress]
    | b :: rest =>
      have hkey := simdLoop_rleRun W hW b 1 rest
      have hunfold : rle_compress_simd W hW (b :: rest) =
          (rleRun b (simdLoop W hW b 1 rest).1 (simdLoop W hW b 1 rest).2).1 :: b ::
            rle_compress_simd W hW
              (rleRun b (simdLoop W hW b 1 rest).1 (simdLoop W hW b 1 rest).2).2 := by
        rw [rle_compress_simd]
      have hunfold' : rle_compress (b :: rest) =
          (rleRun b 1 rest).1 :: b :: rle_compress (rleRun b 1 rest).2 := by
        rw [rle_compress]
      rw [hunfold, hunfold', hkey]
      have hlen : (rleRun b 1 rest).2.length ≤ n := by
        have := rleRun_snd_length_le b 1 rest
        simp only [List.length_cons] at hs
        omega
      rw [ih (rleRun b 1 rest).2 hlen]

/-- The SIMD paths produce byte-identical output to the scalar path. -/
theorem rle_compress_simd_eq (W : Nat) (hW : 0 < W) (s : List Nat) :
    rle_compress_simd W hW s = rle_compress s :=
  rle_compress_simd_eq_aux W hW s.length s (Nat.le_refl _)

/-! ## Canvas

`Canvas` (canvas.rs) is a `CANVAS_SIZE`-byte buffer, modelled as
`Fin CANVAS_SIZE → Nat`.  `set_pixel` (lines 63-72) bounds-checks `x` and `y`
and stores through a raw pointer at linear index `y * CANVAS_WIDTH + x`. -/

/-- Byte buffer of the live canvas. -/
def Canvas : Type := Fin CANVAS_SIZE → Nat

theorem pixel_index_lt (x y : Nat) (hx : x < CANVAS_WIDTH) (hy : y < CANVAS_HEIGHT) :
    y * CANVAS_WIDTH + x < CANVAS_SIZE := by
  simp only [CANVAS_WIDTH, CANVAS_HEIGHT, CANVAS_SIZE] at *
  omega

/-- `Canvas::set_pixel` from canvas.rs: write `color` at `y * W + x` if both
coordinates are in range, otherwise do nothing. -/
def set_pixel (canvas : Canvas) (x y color : Nat) : Canvas :=
  if h : x < CANVAS_WIDTH ∧ y < CANVAS_HEIGHT then
    Function.update canvas ⟨y * CANVAS_WIDTH + x, pixel_index_lt x y h.1 h.2⟩ color
  else canvas

/-! ## Cooldown bitset (cooldown.rs)

`CooldownArray` is a fixed array of `COOLDOWN_ARRAY_LEN` u64 words.
`is_on_cooldown` / `set_cooldown` index word `local_id >> 6` without any
bounds check of their own; the array indexing panics when the word index is
out of range, modelled by returning `none`. -/

/-- `CooldownArray`: `COOLDOWN_ARRAY_LEN` 64-bit words. -/
structure CooldownArray where
  bits : Fin COOLDOWN_ARRAY_LEN → Nat

/-- `CooldownArray::new`. -/
def CooldownArray.new : CooldownArray := ⟨fun _ => 0⟩

/-- `CooldownArray::is_on_cooldown`: test bit `local_id & 63` of word
`local_id >> 6`; `none` models the index-out-of-bounds panic. -/
def CooldownArray.is_on_cooldown (a : CooldownArray) (local_id : Nat) : Option Bool :=
  if h : local_id >>> 6 < COOLDOWN_ARRAY_LEN then
    some (a.bits ⟨local_id >>> 6, h⟩ &&& (1 <<< (local_id &&& 63)) != 0)
  else none

/-- `CooldownArray::set_cooldown`: OR bit `local_id & 63` into word
`local_id >> 6`; `none` models the index-out-of-bounds panic. -/
def CooldownArray.set_cooldown (a : CooldownArray) (local_id : Nat) : Option CooldownArray :=
  if h : local_id >>> 6 < COOLDOWN_ARRAY_LEN then
    some ⟨Function.update a.bits ⟨local_id >>> 6, h⟩
      (a.bits ⟨local_id >>> 6, h⟩ ||| (1 <<< (local_id &&& 63)))⟩
  else none

/-! ## Timing wheel (timing_wheel.rs) -/

/-- `TimingWheel`: ring of `TIMING_WHEEL_TICKS` per-slot bitsets plus the
current tick index (a `usize` in the source, kept below
`TIMING_WHEEL_TICKS` by every write). -/
structure TimingWheel where
  wheel : Fin TIMING_WHEEL_TICKS → CooldownArray
  current_tick : Nat

/-- `TimingWheel::new`. -/
def TimingWheel.new : TimingWheel := ⟨fun _ => CooldownArray.new, 0⟩

theorem next_tick_lt (t : Nat) : (t + 1) % TIMING_WHEEL_TICKS < TIMING_WHEEL_TICKS :=
  Nat.mod_lt _ (by simp [TIMING_WHEEL_TICKS])

/-- `TimingWheel::tick`: advance `current_tick`, AND the complement of the
expiring slot into `master`, and wipe the expiring slot.  `!chunk` on a u64 is
`U64_MASK ^^^ chunk`. -/
def TimingWheel.tick (w : TimingWheel) (master : CooldownArray) :
    TimingWheel × CooldownArray :=
  let ct : Fin TIMING_WHEEL_TICKS := ⟨(w.current_tick + 1) % TIMING_WHEEL_TICKS,
    next_tick_lt w.current_tick⟩
  let expiring := w.wheel ct
  ({ wheel := Function.update w.wheel ct ⟨fun _ => 0⟩, current_tick := ct.val },
   ⟨fun j => master.bits j &&& (U64_MASK ^^^ expiring.bits j)⟩)

/-- `TimingWheel::add_cooldown`: set the user's bit in the slot at
`current_tick`; `none` models the panics of slot indexing (when
`current_tick` is out of range) and of `set_cooldown`. -/
def TimingWheel.add_cooldown (w : TimingWheel) (local_id : Nat) : Option TimingWheel :=
  if h : w.current_tick < TIMING_WHEEL_TICKS then
    match (w.wheel ⟨w.current_tick, h⟩).set_cooldown local_id with
    | some slot => some { w with wheel := Function.update w.wheel ⟨w.current_tick, h⟩ slot }
    | none => none
  else none

/-- `k` successive `tick(master)` calls. -/
def TimingWheel.tickN : Nat → TimingWheel → CooldownArray → TimingWheel × CooldownArray
  | 0, w, master => (w, master)
  | k + 1, w, master =>
    let r := w.tick master
    TimingWheel.tickN k r.1 r.2

theorem and_one_shiftLeft_bne_zero (w b : Nat) : (w &&& (1 <<< b) != 0) = w.testBit b := by
  rw [Nat.one_shiftLeft]
  cases hbit : w.testBit b with
  | false =>
    have hz : w &&& 2 ^ b = 0 := by
      apply Nat.eq_of_testBit_eq
      intro i
      rw [Nat.testBit_and, Nat.zero_testBit, Nat.testBit_two_pow]
      by_cases hi : b = i
      · subst hi; simp [hbit]
      · simp [hi]
    simp [hz]
  | true =>
    have hb1 : (w &&& 2 ^ b).testBit b = true := by
      rw [Nat.testBit_and, hbit, Nat.testBit_two_pow]
      simp
    have hnz : w &&& 2 ^ b ≠ 0 := by
      intro h0
      rw [h0, Nat.zero_testBit] at hb1
      exact Bool.false_ne_true hb1
    simp [bne_iff_ne, hnz]

theorem and_63_lt (id : Nat) : id &&& 63 < 64 :=
  Nat.lt_of_le_of_lt Nat.and_le_right (by norm_num)

/-- ANDing with the complement of `e` (a u64 `!e`) clears exactly the bits
set in `e`, at positions below 64. -/
theorem testBit_and_not (m e b : Nat) (hb : b < 64) :
    (m &&& (U64_MASK ^^^ e)).testBit b = (m.testBit b && !(e.testBit b)) := by
  rw [U64_MASK, Nat.testBit_and, Nat.testBit_xor, Nat.testBit_two_pow_sub_one]
  simp [hb]

theorem CooldownArray.is_on_cooldown_eq (a : CooldownArray) (id : Nat)
    (h : id >>> 6 < COOLDOWN_ARRAY_LEN) :
    a.is_on_cooldown id = some ((a.bits ⟨id >>> 6, h⟩).testBit (id &&& 63)) := by
  rw [CooldownArray.is_on_cooldown, dif_pos h, and_one_shiftLeft_bne_zero]

/-- Core expiry induction: if the bit of `id` sits in exactly the wheel slot
that will be drained in `d` more ticks (and in the master bitset), then the
master keeps the bit for the next `d - 1` ticks and loses it on the `d`-th. -/
theorem tickN_expiry (id : Nat) (hid : id >>> 6 < COOLDOWN_ARRAY_LEN) :
    ∀ (d : Nat) (tw : TimingWheel) (master : CooldownArray),
      0 < d → d ≤ TIMING_WHEEL_TICKS →
      tw.current_tick < TIMING_WHEEL_TICKS →
      (master.bits ⟨id >>> 6, hid⟩).testBit (id &&& 63) = true →
      (∀ j : Fin TIMING_WHEEL_TICKS,
        ((tw.wheel j).bits ⟨id >>> 6, hid⟩).testBit (id &&& 63) =
          decide (j.val = (tw.current_tick + d) % TIMING_WHEEL_TICKS)) →
      (∀ k, k < d →
        (((TimingWheel.tickN k tw master).2.bits ⟨id >>> 6, hid⟩).testBit (id &&& 63)
          = true)) ∧
      (((TimingWheel.tickN d tw master).2.bits ⟨id >>> 6, hid⟩).testBit (id &&& 63)
        = false) := by
  intro d
  induction d with
  | zero => intro tw master h0; exact absurd h0 (by omega)
  | succ n ih =>
    intro tw master _ hdT hct hm hslots
    have hb := and_63_lt id
    have hctnext := next_tick_lt tw.current_tick
    -- the slot drained by the next tick
    have hdrain : ((tw.wheel ⟨(tw.current_tick + 1) % TIMING_WHEEL_TICKS, hctnext⟩).bits
        ⟨id >>> 6, hid⟩).testBit (id &&& 63) =
        decide ((tw.current_tick + 1) % TIMING_WHEEL_TICKS =
          (tw.current_tick + (n + 1)) % TIMING_WHEEL_TICKS) :=
      hslots ⟨(tw.current_tick + 1) % TIMING_WHEEL_TICKS, hctnext⟩
    have hmaster' : ∀ j : Fin COOLDOWN_ARRAY_LEN,
        ((tw.tick master).2.bits j) = master.bits j &&&
          (U64_MASK ^^^ ((tw.wheel ⟨(tw.current_tick + 1) % TIMING_WHEEL_TICKS,
            hctnext⟩).bits j)) := fun _ => rfl
    cases n with
    | zero =>
      -- d = 1: the next tick drains the slot holding the bit
      have hdrain2 : ((tw.wheel ⟨(tw.current_tick + 1) % TIMING_WHEEL_TICKS, hctnext⟩).bits
          ⟨id >>> 6, hid⟩).testBit (id &&& 63) = true := by
        rw [hdrain]
        norm_num
      constructor
      · intro k hk
        have : k = 0 := by omega
        subst this
        exact hm
      · show (((TimingWheel.tickN 0 (tw.tick master).1 (tw.tick master).2).2.bits
            ⟨id >>> 6, hid⟩).testBit (id &&& 63)) = false
        rw [TimingWheel.tickN, hmaster' ⟨id >>> 6, hid⟩, testBit_and_not _ _ _ hb, hdrain2]
        simp [hm]
    | succ m =>
      -- d ≥ 2: the drained slot does not hold the bit
      have hne : (tw.current_tick + 1) % TIMING_WHEEL_TICKS ≠
          (tw.current_tick + (m + 1 + 1)) % TIMING_WHEEL_TICKS := by
        simp only [TIMING_WHEEL_TICKS] at *
        omega
      rw [decide_eq_false hne] at hdrain
      -- the master keeps the bit through this tick
      have hm' : (((tw.tick master).2.bits ⟨id >>> 6, hid⟩).testBit (id &&& 63)) = true := by
        rw [hmaster' ⟨id >>> 6, hid⟩, testBit_and_not _ _ _ hb, hdrain]
        simp [hm]
      -- the new wheel satisfies the slot hypothesis at distance m + 1
      have hslots' : ∀ j : Fin TIMING_WHEEL_TICKS,
          (((tw.tick master).1.wheel j).bits ⟨id >>> 6, hid⟩).testBit (id &&& 63) =
            decide (j.val = ((tw.tick master).1.current_tick + (m + 1)) %
              TIMING_WHEEL_TICKS) := by
        intro j
        have hct' : (tw.tick master).1.current_tick =
            (tw.current_tick + 1) % TIMING_WHEEL_TICKS := rfl
        have htarget : ((tw.tick master).1.current_tick + (m + 1)) % TIMING_WHEEL_TICKS =
            (tw.current_tick + (m + 1 + 1)) % TIMING_WHEEL_TICKS := by
          rw [hct', Nat.mod_add_mod]
          congr 1
          omega
        rw [htarget]
        by_cases hj : j = (⟨(tw.current_tick + 1) % TIMING_WHEEL_TICKS, hctnext⟩ :
            Fin TIMING_WHEEL_TICKS)
        · subst hj
          have hupd : (tw.tick master).1.wheel
              ⟨(tw.current_tick + 1) % TIMING_WHEEL_TICKS, hctnext⟩ =
              (⟨fun _ => 0⟩ : CooldownArray) := by
            show Function.update tw.wheel _ _ _ = _
            rw [Function.update_same]
          rw [hupd]
          simp only [Nat.zero_testBit]
          exact (decide_eq_false hne).symm
        · have hupd : (tw.tick master).1.wheel j = tw.wheel j := by
            show Function.update tw.wheel _ _ _ = _
            rw [Function.update_noteq hj]
          rw [hupd]
          exact hslots j
      have hrec := ih (tw.tick master).1 (tw.tick master).2 (by omega) (by omega)
        (by rw [show (tw.tick master).1.current_tick =
              (tw.current_tick + 1) % TIMING_WHEEL_TICKS from rfl]
            exact hctnext)
        hm' hslots'
      constructor
      · intro k hk
        cases k with
        | zero => exact hm
        | succ k' =>
          show (((TimingWheel.tickN k' (tw.tick master).1 (tw.tick master).2).2.bits
              ⟨id >>> 6, hid⟩).testBit (id &&& 63)) = true
          exact hrec.1 k' (by omega)
      · show (((TimingWheel.tickN (m + 1) (tw.tick master).1
              (tw.tick master).2).2.bits ⟨id >>> 6, hid⟩).testBit (id &&& 63)) = false
        exact hrec.2

/-! ## SPSC ring buffer (spsc.rs)

`SpscRingBuffer<T>` holds two `usize` cursors and `SPSC_CAPACITY` slots.
Cursors use wrapping arithmetic; slots start uninitialised
(`MaybeUninit::uninit().assume_init()`), modelled by an arbitrary initial
buffer so every theorem holds for any junk contents.  The claims are about
sequential executions, so the atomics' loads/stores become plain reads and
writes. -/

theorem and_two_pow_sub_one (x n : Nat) : x &&& (2 ^ n - 1) = x % 2 ^ n := by
  apply Nat.eq_of_testBit_eq
  intro i
  rw [Nat.testBit_and, Nat.testBit_two_pow_sub_one, Nat.testBit_mod_two_pow]
  exact Bool.and_comm _ _

theorem and_capacity_mask_lt (x : Nat) : x &&& (SPSC_CAPACITY - 1) < SPSC_CAPACITY := by
  have h : x &&& (SPSC_CAPACITY - 1) = x % SPSC_CAPACITY := by
    have := and_two_pow_sub_one x 10
    norm_num at this
    simpa [SPSC_CAPACITY] using this
  rw [h]
  exact Nat.mod_lt _ (by simp [SPSC_CAPACITY])

/-- `usize::wrapping_sub` on values below `2^64`. -/
def wrappingSub (a b : Nat) : Nat := (a + (USIZE_MOD - b % USIZE_MOD)) % USIZE_MOD

theorem wrappingSub_of_le (a b : Nat) (hba : b ≤ a) (ha : a < USIZE_MOD) :
    wrappingSub a b = a - b := by
  rw [wrappingSub, Nat.mod_eq_of_lt (Nat.lt_of_le_of_lt hba ha)]
  have h1 : a + (USIZE_MOD - b) = (a - b) + USIZE_MOD := by omega
  rw [h1, Nat.add_mod_right, Nat.mod_eq_of_lt (by omega)]

/-- State of `SpscRingBuffer<T>`: producer cursor `tail`, consumer cursor
`head`, and the backing slots. -/
structure SpscRingBuffer (α : Type) where
  tail : Nat
  head : Nat
  buffer : Fin SPSC_CAPACITY → α

/-- `SpscRingBuffer::new`; `junk` is the arbitrary content of the
uninitialised slots. -/
def SpscRingBuffer.new (junk : Fin SPSC_CAPACITY → α) : SpscRingBuffer α :=
  ⟨0, 0, junk⟩

/-- `SpscRingBuffer::push`: fail when `tail.wrapping_sub(head) >= CAPACITY`,
otherwise write slot `tail & (CAPACITY - 1)` and advance `tail`.  The `Bool`
is `true` on `Ok(())`, `false` on `Err(value)`. -/
def SpscRingBuffer.push (q : SpscRingBuffer α) (v : α) : SpscRingBuffer α × Bool :=
  if SPSC_CAPACITY ≤ wrappingSub q.tail q.head then (q, false)
  else
    ({ q with
        buffer := Function.update q.buffer
          ⟨q.tail &&& (SPSC_CAPACITY - 1), and_capacity_mask_lt q.tail⟩ v,
        tail := (q.tail + 1) % USIZE_MOD },
     true)

/-- `SpscRingBuffer::pop`: `none` when `head == tail`, otherwise read slot
`head & (CAPACITY - 1)` and advance `head`. -/
def SpscRingBuffer.pop (q : SpscRingBuffer α) : SpscRingBuffer α × Option α :=
  if q.head = q.tail then (q, none)
  else
    ({ q with head := (q.head + 1) % USIZE_MOD },
     some (q.buffer ⟨q.head &&& (SPSC_CAPACITY - 1), and_capacity_mask_lt q.head⟩))

/-- A sequential operation on the ring. -/
inductive SpscOp (α : Type) where
  | pushOp (v : α)
  | popOp

/-- Number of push operations in a sequence. -/
def numPushes : List (SpscOp α) → Nat
  | [] => 0
  | SpscOp.pushOp _ :: rest => numPushes rest + 1
  | SpscOp.popOp :: rest => numPushes rest

/-- Run a sequence of operations; returns the final state, the successfully
popped values and the successfully pushed values, each in order. -/
def runOps : SpscRingBuffer α → List (SpscOp α) → SpscRingBuffer α × List α × List α
  | q, [] => (q, [], [])
  | q, SpscOp.pushOp v :: rest =>
    let r := q.push v
    let t := runOps r.1 rest
    (t.1, t.2.1, if r.2 then v :: t.2.2 else t.2.2)
  | q, SpscOp.popOp :: rest =>
    let r := q.pop
    let t := runOps r.1 rest
    match r.2 with
    | some v => (t.1, v :: t.2.1, t.2.2)
    | none => t


theorem and_capacity_mask_of_lt (i : Nat) (h : i < SPSC_CAPACITY) :
    i &&& (SPSC_CAPACITY - 1) = i := by
  have h1 : (SPSC_CAPACITY : Nat) - 1 = 2 ^ 10 - 1 := by norm_num [SPSC_CAPACITY]
  rw [h1, and_two_pow_sub_one]
  exact Nat.mod_eq_of_lt (by simpa [SPSC_CAPACITY] using h)

theorem get_append_last (l : List α) (v : α) (i : Nat) (hi : i < (l ++ [v]).length)
    (h : i = l.length) : (l ++ [v]).get ⟨i, hi⟩ = v := by
  subst h
  show (l ++ [v])[l.length] = v
  rw [List.getElem_append_right (Nat.le_refl _)]
  simp

theorem get_append_left_nat (l₁ l₂ : List α) (i : Nat) (h : i < l₁.length)
    (h' : i < (l₁ ++ l₂).length) : (l₁ ++ l₂).get ⟨i, h'⟩ = l₁.get ⟨i, h⟩ := by
  show (l₁ ++ l₂)[i] = l₁[i]
  exact List.getElem_append_left h

theorem runOps_prefix_aux :
    ∀ (ops : List (SpscOp α)) (q : SpscRingBuffer α) (pushedPre : List α),
      q.tail = pushedPre.length →
      q.head ≤ q.tail →
      pushedPre.length + numPushes ops ≤ SPSC_CAPACITY →
      (∀ (i : Nat) (h : i < pushedPre.length),
        q.buffer ⟨i &&& (SPSC_CAPACITY - 1), and_capacity_mask_lt i⟩ = pushedPre.get ⟨i, h⟩) →
      (runOps q ops).2.1 =
        (((pushedPre ++ (runOps q ops).2.2).drop q.head).take (runOps q ops).2.1.length) := by
  intro ops
  induction ops with
  | nil =>
    intro q pushedPre _ _ _ _
    simp [runOps]
  | cons op rest ih =>
    intro q pushedPre htail hhd hcount hbuf
    match op with
    | SpscOp.pushOp v =>
      have hcnt : numPushes (SpscOp.pushOp v :: rest) = numPushes rest + 1 := rfl
      rw [hcnt] at hcount
      have htail_lt : q.tail < SPSC_CAPACITY := by omega
      have hguard : ¬ (SPSC_CAPACITY ≤ wrappingSub q.tail q.head) := by
        rw [wrappingSub_of_le q.tail q.head hhd
          (Nat.lt_trans htail_lt (by norm_num [SPSC_CAPACITY, USIZE_MOD]))]
        omega
      have hpush : q.push v =
          ({ q with
              buffer := Function.update q.buffer
                ⟨q.tail &&& (SPSC_CAPACITY - 1), and_capacity_mask_lt q.tail⟩ v,
              tail := (q.tail + 1) % USIZE_MOD }, true) := by
        rw [SpscRingBuffer.push, if_neg hguard]
      have hmod : (q.tail + 1) % USIZE_MOD = q.tail + 1 :=
        Nat.mod_eq_of_lt (by simp only [SPSC_CAPACITY, USIZE_MOD] at *; omega)
      have hbuf' : ∀ (i : Nat) (h : i < (pushedPre ++ [v]).length),
          (q.push v).1.buffer ⟨i &&& (SPSC_CAPACITY - 1), and_capacity_mask_lt i⟩ =
          (pushedPre ++ [v]).get ⟨i, h⟩ := by
        intro i hi
        rw [hpush]
        have hilen : i < pushedPre.length + 1 := by
          simpa using hi
        by_cases hiq : i = q.tail
        · have hii : i &&& (SPSC_CAPACITY - 1) = i :=
            and_capacity_mask_of_lt i (by omega)
          have hfin : (⟨i &&& (SPSC_CAPACITY - 1), and_capacity_mask_lt i⟩ :
              Fin SPSC_CAPACITY) =
              ⟨q.tail &&& (SPSC_CAPACITY - 1), and_capacity_mask_lt q.tail⟩ := by
            apply Fin.ext
            show i &&& (SPSC_CAPACITY - 1) = q.tail &&& (SPSC_CAPACITY - 1)
            rw [hiq]
          show Function.update q.buffer _ _ _ = _
          rw [hfin, Function.update_same]
          exact (get_append_last pushedPre v i hi (by omega)).symm
        · have hlt : i < pushedPre.length := by omega
          have hii : i &&& (SPSC_CAPACITY - 1) = i :=
            and_capacity_mask_of_lt i (by omega)
          have hti : q.tail &&& (SPSC_CAPACITY - 1) = q.tail :=
            and_capacity_mask_of_lt q.tail htail_lt
          have hne : (⟨i &&& (SPSC_CAPACITY - 1), and_capacity_mask_lt i⟩ :
              Fin SPSC_CAPACITY) ≠
              ⟨q.tail &&& (SPSC_CAPACITY - 1), and_capacity_mask_lt q.tail⟩ := by
            intro hcontra
            apply hiq
            have hv := congrArg Fin.val hcontra
            simp only [] at hv
            rw [hii, hti] at hv
            exact hv
          show Function.update q.buffer _ _ _ = _
          rw [Function.update_noteq hne]
          rw [get_append_left_nat pushedPre [v] i hlt hi]
          exact hbuf i hlt
      have hrec := ih (q.push v).1 (pushedPre ++ [v])
        (by rw [hpush]
            show (q.tail + 1) % USIZE_MOD = (pushedPre ++ [v]).length
            rw [hmod, htail]
            simp)
        (by rw [hpush]
            show q.head ≤ (q.tail + 1) % USIZE_MOD
            rw [hmod]
            omega)
        (by simp only [List.length_append, List.length_cons, List.length_nil]; omega)
        hbuf'
      have hhead' : (q.push v).1.head = q.head := by rw [hpush]
      have hsucc : (q.push v).2 = true := by rw [hpush]
      have hrun : runOps q (SpscOp.pushOp v :: rest) =
          ((runOps (q.push v).1 rest).1, (runOps (q.push v).1 rest).2.1,
            v :: (runOps (q.push v).1 rest).2.2) := by
        simp only [runOps, hsucc, if_pos]
      rw [hrun]
      simp only []
      rw [hhead'] at hrec
      have happ : pushedPre ++ [v] ++ (runOps (q.push v).1 rest).2.2 =
          pushedPre ++ (v :: (runOps (q.push v).1 rest).2.2) := by
        rw [List.append_assoc]
        rfl
      rw [happ] at hrec
      exact hrec
    | SpscOp.popOp =>
      have hcnt : numPushes (SpscOp.popOp :: rest) = numPushes rest := rfl
      rw [hcnt] at hcount
      by_cases hempty : q.head = q.tail
      · have hpop : q.pop = (q, none) := by rw [SpscRingBuffer.pop, if_pos hempty]
        have hrun : runOps q (SpscOp.popOp :: rest) = runOps q rest := by
          simp only [runOps, hpop]
        rw [hrun]
        exact ih q pushedPre htail hhd hcount hbuf
      · have hlt : q.head < q.tail := Nat.lt_of_le_of_ne hhd hempty
        have hheadlt : q.head < pushedPre.length := htail ▸ hlt
        have hmod : (q.head + 1) % USIZE_MOD = q.head + 1 :=
          Nat.mod_eq_of_lt (by simp only [SPSC_CAPACITY, USIZE_MOD] at *; omega)
        have hpop : q.pop = ({ q with head := (q.head + 1) % USIZE_MOD },
            some (q.buffer ⟨q.head &&& (SPSC_CAPACITY - 1), and_capacity_mask_lt q.head⟩)) := by
          rw [SpscRingBuffer.pop, if_neg hempty]
        have hrec := ih (q.pop).1 pushedPre
          (by rw [hpop]; exact htail)
          (by rw [hpop]
              show (q.head + 1) % USIZE_MOD ≤ q.tail
              rw [hmod]
              omega)
          hcount
          (by intro i hi; rw [hpop]; exact hbuf i hi)
        have hrun : runOps q (SpscOp.popOp :: rest) =
            ((runOps (q.pop).1 rest).1,
              q.buffer ⟨q.head &&& (SPSC_CAPACITY - 1), and_capacity_mask_lt q.head⟩ ::
                (runOps (q.pop).1 rest).2.1,
              (runOps (q.pop).1 rest).2.2) := by
          conv_lhs => rw [runOps]
          rw [hpop]
        rw [hrun]
        simp only []
        have hhead' : (q.pop).1.head = q.head + 1 := by rw [hpop]; exact hmod
        rw [hhead'] at hrec
        have hL : q.head < (pushedPre ++ (runOps (q.pop).1 rest).2.2).length := by
          simp only [List.length_append]
          omega
        rw [List.drop_eq_getElem_cons hL, List.getElem_append_left hheadlt,
          List.length_cons, List.take_succ_cons]
        have hval : q.buffer ⟨q.head &&& (SPSC_CAPACITY - 1), and_capacity_mask_lt q.head⟩ =
            pushedPre[q.head] := hbuf q.head hheadlt
        rw [hval]
        exact congrArg _ hrec

/-! ## Transport layer (transport.rs)

`PixelDatagram` is `#[repr(C, packed)] { x: u16, y: u16, color: u8 }`
(5 bytes).  `process_datagrams` drains application datagrams of an
established connection: each one of exactly 5 bytes is parsed as
`(x: u16 NE, y: u16 NE, color: u8)` — native byte order on the x86_64
target is little-endian — and any other length is skipped. -/

structure PixelDatagram where
  x : Nat
  y : Nat
  color : Nat
deriving DecidableEq

/-- `u16::from_ne_bytes([b0, b1])` on the little-endian x86_64 target. -/
def u16_from_ne_bytes (b0 b1 : Nat) : Nat := b0 + 256 * b1

/-- Parse one 5-byte datagram as the source does after the length check. -/
def parsePixelDatagram (d : List Nat) : PixelDatagram :=
  { x := u16_from_ne_bytes (d.getD 0 0) (d.getD 1 0),
    y := u16_from_ne_bytes (d.getD 2 0) (d.getD 3 0),
    color := d.getD 4 0 }

/-- The `while let Ok(len) = conn.dgram_recv(..)` loop body of
`process_datagrams`: keep a pixel per 5-byte datagram, skip the rest. -/
def processDatagramLoop : List (List Nat) → List PixelDatagram
  | [] => []
  | d :: rest =>
    if d.length = 5 then parsePixelDatagram d :: processDatagramLoop rest
    else processDatagramLoop rest

/-- `TransportState::process_datagrams`: nothing is emitted unless the
connection is established; the pending datagrams are the function's input
stream. -/
def process_datagrams (established : Bool) (dgrams : List (List Nat)) :
    List PixelDatagram :=
  if established then processDatagramLoop dgrams else []

/-! ## Worker broadcast (worker.rs, `handle_broadcast`)

The worker-side state consists of `last_broadcast_index`,
`broadcast_ticks` (a `u32`) and `last_sent_canvas`.  The published
snapshot inputs (`BUFFER_POOL[current_active].data` and
`COMPRESSED_BUFFER_POOL[current_active].data[..compressed_len]`) are
parameters.  The produced datagram payloads (the chunks passed to
`dgram_send`, identical for every connection) are returned. -/

/-- `slice::chunks(n)`: consecutive chunks, the last one possibly shorter. -/
def chunksOf (n : Nat) (hn : 0 < n) : List β → List (List β)
  | [] => []
  | b :: rest => ((b :: rest).take n) :: chunksOf n hn ((b :: rest).drop n)
termination_by l => l.length
decreasing_by
  simp only [List.length_drop, List.length_cons]
  omega

theorem chunksOf_flatten (n : Nat) (hn : 0 < n) :
    ∀ (l : List β), (chunksOf n hn l).flatten = l := by
  have haux : ∀ (m : Nat) (l : List β), l.length ≤ m → (chunksOf n hn l).flatten = l := by
    intro m
    induction m with
    | zero =>
      intro l hl
      have : l = [] := List.eq_nil_of_length_eq_zero (Nat.le_zero.mp hl)
      subst this
      rw [chunksOf]
      rfl
    | succ m ih =>
      intro l hl
      match l with
      | [] => rw [chunksOf]; rfl
      | b :: rest =>
        rw [chunksOf, List.flatten_cons,
          ih ((b :: rest).drop n) (by simp only [List.length_drop, List.length_cons] at *; omega)]
        exact List.take_append_drop n (b :: rest)
  intro l
  exact haux l.length l (Nat.le_refl _)

theorem chunksOf_length_le (n : Nat) (hn : 0 < n) :
    ∀ (l : List β) (c : List β), c ∈ chunksOf n hn l → c.length ≤ n := by
  have haux : ∀ (m : Nat) (l : List β), l.length ≤ m →
      ∀ (c : List β), c ∈ chunksOf n hn l → c.length ≤ n := by
    intro m
    induction m with
    | zero =>
      intro l hl c hc
      have : l = [] := List.eq_nil_of_length_eq_zero (Nat.le_zero.mp hl)
      subst this
      rw [chunksOf] at hc
      exact absurd hc (List.not_mem_nil c)
    | succ m ih =>
      intro l hl c hc
      match l with
      | [] =>
        rw [chunksOf] at hc
        exact absurd hc (List.not_mem_nil c)
      | b :: rest =>
        rw [chunksOf] at hc
        rcases List.mem_cons.mp hc with hc1 | hc2
        · subst hc1
          simp [List.length_take]
        · exact ih ((b :: rest).drop n)
            (by simp only [List.length_drop, List.length_cons] at *; omega) c hc2
  intro l c hc
  exact haux l.length l (Nat.le_refl _) c hc

/-- `(i as u32).to_le_bytes()` (canvas indices are far below `2^32`). -/
def u32_to_le_bytes (i : Nat) : List Nat :=
  [i % 256, i / 256 % 256, i / 65536 % 256, i / 16777216 % 256]

/-- One iteration of the diff scan (`for i in 0..CANVAS_SIZE`): if the pixel
changed, append the `(index: u32 LE, color: u8)` record to the diff buffer
and update `last_sent_canvas[i]` in place. -/
def diffStep (raw : Fin CANVAS_SIZE → Nat)
    (acc : List Nat × (Fin CANVAS_SIZE → Nat)) (i : Fin CANVAS_SIZE) :
    List Nat × (Fin CANVAS_SIZE → Nat) :=
  if acc.2 i ≠ raw i then
    (acc.1 ++ u32_to_le_bytes i.val ++ [raw i], Function.update acc.2 i (raw i))
  else acc

/-- The whole diff scan of `handle_broadcast`, starting from a cleared diff
buffer. -/
def diffLoop (last raw : Fin CANVAS_SIZE → Nat) : List Nat × (Fin CANVAS_SIZE → Nat) :=
  (List.finRange CANVAS_SIZE).foldl (diffStep raw) ([], last)

/-- Specification-side description of the diff stream: the concatenation, in
index order over `L`, of one 5-byte record per index where `last` and `raw`
differ. -/
def diffRecordsOn (last raw : Fin CANVAS_SIZE → Nat) :
    List (Fin CANVAS_SIZE) → List Nat
  | [] => []
  | i :: L =>
    (if last i ≠ raw i then u32_to_le_bytes i.val ++ [raw i] else []) ++
      diffRecordsOn last raw L

/-- The diff stream over the whole canvas, in increasing index order. -/
def diffRecords (last raw : Fin CANVAS_SIZE → Nat) : List Nat :=
  diffRecordsOn last raw (List.finRange CANVAS_SIZE)

/-- Worker state touched by `handle_broadcast`. -/
structure WorkerBroadcastState where
  last_broadcast_index : Nat
  broadcast_ticks : Nat
  last_sent_canvas : Fin CANVAS_SIZE → Nat

/-- `WorkerCore::handle_broadcast` (worker.rs lines 299-361): on an index
change, bump the `u32` counter; on counter 1 or a multiple of 60 send the
full compressed snapshot in 1200-byte chunks and sync `last_sent_canvas`;
otherwise send the diff stream in 1200-byte chunks (nothing when empty,
which equals chunking the empty stream). -/
def handle_broadcast (st : WorkerBroadcastState) (active : Nat)
    (raw : Fin CANVAS_SIZE → Nat) (compressed : List Nat) :
    WorkerBroadcastState × List (List Nat) :=
  if active = st.last_broadcast_index then (st, [])
  else
    if (st.broadcast_ticks + 1) % U32_MOD = 1 ∨
        (st.broadcast_ticks + 1) % U32_MOD % 60 = 0 then
      ({ last_broadcast_index := active,
         broadcast_ticks := (st.broadcast_ticks + 1) % U32_MOD,
         last_sent_canvas := raw },
       chunksOf 1200 (by norm_num) compressed)
    else
      ({ last_broadcast_index := active,
         broadcast_ticks := (st.broadcast_ticks + 1) % U32_MOD,
         last_sent_canvas := (diffLoop st.last_sent_canvas raw).2 },
       chunksOf 1200 (by norm_num) (diffLoop st.last_sent_canvas raw).1)

theorem diffRecordsOn_congr (raw : Fin CANVAS_SIZE → Nat) :
    ∀ (L : List (Fin CANVAS_SIZE)) (l₁ l₂ : Fin CANVAS_SIZE → Nat),
      (∀ j, j ∈ L → l₁ j = l₂ j) → diffRecordsOn l₁ raw L = diffRecordsOn l₂ raw L := by
  intro L
  induction L with
  | nil => intro l₁ l₂ _; rfl
  | cons i L ih =>
    intro l₁ l₂ h
    rw [diffRecordsOn, diffRecordsOn, h i (List.mem_cons_self i L),
      ih l₁ l₂ (fun j hj => h j (List.mem_cons_of_mem i hj))]

theorem diffLoop_foldl_spec (raw : Fin CANVAS_SIZE → Nat) :
    ∀ (L : List (Fin CANVAS_SIZE)) (last : Fin CANVAS_SIZE → Nat) (buf : List Nat),
      L.Nodup →
      (L.foldl (diffStep raw) (buf, last)).1 = buf ++ diffRecordsOn last raw L ∧
      ∀ j, (L.foldl (diffStep raw) (buf, last)).2 j =
        if j ∈ L then raw j else last j := by
  intro L
  induction L with
  | nil =>
    intro last buf _
    constructor
    · rw [List.foldl_nil, diffRecordsOn]
      simp
    · intro j
      rw [List.foldl_nil]
      simp
  | cons i L ih =>
    intro last buf hnodup
    have hi_not_mem : i ∉ L := (List.nodup_cons.mp hnodup).1
    have hLnodup : L.Nodup := (List.nodup_cons.mp hnodup).2
    rw [List.foldl_cons]
    by_cases hd : last i ≠ raw i
    · have hstep : diffStep raw (buf, last) i =
          (buf ++ u32_to_le_bytes i.val ++ [raw i], Function.update last i (raw i)) := by
        rw [diffStep, if_pos hd]
      rw [hstep]
      obtain ⟨h1, h2⟩ := ih (Function.update last i (raw i))
        (buf ++ u32_to_le_bytes i.val ++ [raw i]) hLnodup
      constructor
      · rw [h1, diffRecordsOn, if_pos hd,
          diffRecordsOn_congr raw L (Function.update last i (raw i)) last
            (fun j hj => Function.update_noteq (fun hji => hi_not_mem (by rw [← hji]; exact hj)) _ _)]
        simp [List.append_assoc]
      · intro j
        rw [h2 j]
        by_cases hjL : j ∈ L
        · simp [hjL, List.mem_cons_of_mem]
        · by_cases hji : j = i
          · subst hji
            simp [hjL, Function.update_same]
          · simp [hjL, hji, Function.update_noteq hji]
    · have hstep : diffStep raw (buf, last) i = (buf, last) := by
        rw [diffStep, if_neg hd]
      rw [hstep]
      obtain ⟨h1, h2⟩ := ih last buf hLnodup
      push_neg at hd
      constructor
      · rw [h1, diffRecordsOn, if_neg (by push_neg; exact hd)]
        simp
      · intro j
        rw [h2 j]
        by_cases hjL : j ∈ L
        · simp [hjL, List.mem_cons_of_mem]
        · by_cases hji : j = i
          · subst hji
            simp [hjL, hd]
          · simp [hjL, hji]

/-- The in-place diff scan produces exactly the specified record stream. -/
theorem diffLoop_fst (last raw : Fin CANVAS_SIZE → Nat) :
    (diffLoop last raw).1 = diffRecords last raw := by
  have h := (diffLoop_foldl_spec raw (List.finRange CANVAS_SIZE) last []
    (List.nodup_finRange CANVAS_SIZE)).1
  rw [diffLoop, h, diffRecords]
  exact List.nil_append _

/-- After the diff scan, `last_sent_canvas` equals the new raw snapshot. -/
theorem diffLoop_snd (last raw : Fin CANVAS_SIZE → Nat) :
    (diffLoop last raw).2 = raw := by
  funext j
  have h := (diffLoop_foldl_spec raw (List.finRange CANVAS_SIZE) last []
    (List.nodup_finRange CANVAS_SIZE)).2 j
  rw [diffLoop, h, if_pos (List.mem_finRange j)]

/-! ## Worker ingress (worker.rs, `handle_incoming_cqe`)

After transport parsing yields `(user_id, pixels)`, the worker loops over the
pixels; a user not on cooldown is placed on cooldown (bitset + timing wheel)
and the pixel is pushed to the master queue (drop on full); a user on
cooldown is skipped.  The returned list records the successfully pushed
pixels; `none` models the panics of the bitset operations. -/

def handle_incoming_cqe (cd : CooldownArray) (tw : TimingWheel)
    (q : SpscRingBuffer PixelDatagram) (user_id : Nat) :
    List PixelDatagram →
      Option (CooldownArray × TimingWheel × SpscRingBuffer PixelDatagram ×
        List PixelDatagram)
  | [] => some (cd, tw, q, [])
  | p :: rest =>
    match cd.is_on_cooldown user_id with
    | none => none
    | some true => handle_incoming_cqe cd tw q user_id rest
    | some false =>
      match cd.set_cooldown user_id with
      | none => none
      | some cd1 =>
        match tw.add_cooldown user_id with
        | none => none
        | some tw1 =>
          match handle_incoming_cqe cd1 tw1 (q.push p).1 user_id rest with
          | none => none
          | some (cdf, twf, qf, pushed) =>
            some (cdf, twf, qf, if (q.push p).2 then p :: pushed else pushed)

/-! ## Master loop seqlock (master.rs, `MasterCore::run`)

Each iteration loads `seq = CANVAS_SEQ` (initially 0), stores
`seq.wrapping_add(1)` before the drain batch (line 111) and stores
`seq.wrapping_add(1)` — the same value — after it (line 126). -/

/-- Value stored to `CANVAS_SEQ` at the start of a drain batch
(master.rs line 111), as a function of the loaded value. -/
def canvasSeqDuringDrain (seq : Nat) : Nat := (seq + 1) % USIZE_MOD

/-- Value stored to `CANVAS_SEQ` at the end of a drain batch
(master.rs line 126), as a function of the value loaded at the start of the
same iteration. -/
def canvasSeqAfterDrain (seq : Nat) : Nat := (seq + 1) % USIZE_MOD

theorem shiftRight6_lt (id : Nat) (hid : id < 64 * COOLDOWN_ARRAY_LEN) :
    id >>> 6 < COOLDOWN_ARRAY_LEN := by
  rw [Nat.shiftRight_eq_div_pow]
  simp only [COOLDOWN_ARRAY_LEN] at *
  omega

theorem set_cooldown_is_on (a : CooldownArray) (id : Nat)
    (h6 : id >>> 6 < COOLDOWN_ARRAY_LEN) (a' : CooldownArray)
    (hset : a.set_cooldown id = some a') :
    a'.is_on_cooldown id = some true := by
  rw [CooldownArray.set_cooldown, dif_pos h6, Option.some.injEq] at hset
  rw [CooldownArray.is_on_cooldown_eq a' id h6, ← hset]
  simp only [Function.update_same]
  rw [Nat.testBit_or, Nat.one_shiftLeft, Nat.testBit_two_pow_self]
  simp

theorem handle_incoming_cqe_on_cooldown (cd : CooldownArray) (tw : TimingWheel)
    (q : SpscRingBuffer PixelDatagram) (user_id : Nat)
    (h : cd.is_on_cooldown user_id = some true) :
    ∀ pixels, handle_incoming_cqe cd tw q user_id pixels = some (cd, tw, q, []) := by
  intro pixels
  induction pixels with
  | nil => rfl
  | cons p rest ih =>
    rw [handle_incoming_cqe, h]
    exact ih

theorem handle_incoming_cqe_cons_true (cd : CooldownArray) (tw : TimingWheel)
    (q : SpscRingBuffer PixelDatagram) (user_id : Nat) (p : PixelDatagram)
    (rest : List PixelDatagram) (h : cd.is_on_cooldown user_id = some true) :
    handle_incoming_cqe cd tw q user_id (p :: rest) =
      handle_incoming_cqe cd tw q user_id rest := by
  rw [handle_incoming_cqe, h]

/-! ## Claim theorems -/

/-- C1: `MasterCore::run` is supposed to make `CANVAS_SEQ` odd before a drain
batch and restore it to an even value afterwards.  The code stores
`seq.wrapping_add(1)` at both points, so the end-of-batch store writes the
same value as the begin store: starting from the initial value 0, after the
first iteration `CANVAS_SEQ` is 1 (odd) between batches, and during the
second iteration's drain batch it is 2 (even) — the claimed invariant fails
on the code. -/
theorem claim_C1_seqlock_parity_bug :
    (∀ seq : Nat, canvasSeqAfterDrain seq = canvasSeqDuringDrain seq) ∧
    canvasSeqDuringDrain 0 = 1 ∧
    canvasSeqAfterDrain 0 = 1 ∧
    canvasSeqAfterDrain 0 % 2 = 1 ∧
    canvasSeqDuringDrain (canvasSeqAfterDrain 0) % 2 = 0 := by
  refine ⟨fun _ => rfl, ?_, ?_, ?_, ?_⟩ <;>
    norm_num [canvasSeqDuringDrain, canvasSeqAfterDrain, USIZE_MOD]

/-- C2: for every byte sequence `s` with `|s| ≤ W·H` and a destination of
capacity at least `|s|`, decoding the run-length encoding of `s` recovers
`s` exactly; in particular `[7,7,7,3,3]` encodes to the pairs `(3,7)(2,3)`
and decodes back. -/
theorem claim_C2_rle_roundtrip :
    (∀ (s : List Nat) (cap : Nat), s.length ≤ CANVAS_SIZE → s.length ≤ cap →
      rle_decompress (rle_compress s) cap = s) ∧
    rle_compress [7, 7, 7, 3, 3] = [3, 7, 2, 3] ∧
    rle_decompress [3, 7, 2, 3] 5 = [7, 7, 7, 3, 3] := by
  refine ⟨fun s cap _ hcap => rle_decompress_rle_compress s cap hcap, ?_, ?_⟩
  · rw [rle_compress]
    norm_num [rleRun]
    rw [rle_compress]
    norm_num [rleRun]
    rw [rle_compress]
  · decide

theorem claim_C2_rle_roundtrip_witness :
    rle_decompress (rle_compress [7, 7, 7, 3, 3]) 5 = [7, 7, 7, 3, 3] :=
  claim_C2_rle_roundtrip.1 [7, 7, 7, 3, 3] 5
    (by norm_num [CANVAS_SIZE, CANVAS_WIDTH, CANVAS_HEIGHT]) (by norm_num)

/-- C5: the output of `rle_compress` when the AVX2 (32-byte) or SSE2
(16-byte) accelerated run-detection paths are taken is byte-identical to the
scalar-only path on every input. -/
theorem claim_C5_simd_paths_equal :
    (∀ s : List Nat, rle_compress_avx2 s = rle_compress s) ∧
    (∀ s : List Nat, rle_compress_sse2 s = rle_compress s) := by
  constructor
  · intro s
    exact rle_compress_simd_eq 32 (by norm_num) s
  · intro s
    exact rle_compress_simd_eq 16 (by norm_num) s

/-- C6: with `x < CANVAS_WIDTH` and `y < CANVAS_HEIGHT`, `set_pixel` stores
the color at linear index `y * CANVAS_WIDTH + x` and leaves every other byte
unchanged; with either coordinate out of range it is a no-op. -/
theorem claim_C6_set_pixel (canvas : Canvas) (x y color : Nat) :
    (∀ (hx : x < CANVAS_WIDTH) (hy : y < CANVAS_HEIGHT),
      set_pixel canvas x y color ⟨y * CANVAS_WIDTH + x, pixel_index_lt x y hx hy⟩ = color ∧
      ∀ i : Fin CANVAS_SIZE, i.val ≠ y * CANVAS_WIDTH + x →
        set_pixel canvas x y color i = canvas i) ∧
    (CANVAS_WIDTH ≤ x ∨ CANVAS_HEIGHT ≤ y → set_pixel canvas x y color = canvas) := by
  constructor
  · intro hx hy
    have hin : x < CANVAS_WIDTH ∧ y < CANVAS_HEIGHT := ⟨hx, hy⟩
    constructor
    · rw [set_pixel, dif_pos hin, Function.update_same]
    · intro i hi
      rw [set_pixel, dif_pos hin]
      exact Function.update_noteq (fun hcontra => hi (congrArg Fin.val hcontra)) _ _
  · intro hout
    rw [set_pixel, dif_neg]
    rintro ⟨h1, h2⟩
    rcases hout with h | h <;> omega

theorem claim_C6_set_pixel_witness :
    set_pixel (fun _ => 0) 10 10 255
      ⟨10 * CANVAS_WIDTH + 10,
        pixel_index_lt 10 10 (by norm_num [CANVAS_WIDTH]) (by norm_num [CANVAS_HEIGHT])⟩ =
      255 ∧
    set_pixel (fun _ => 0) 2000 0 7 = (fun _ => 0) :=
  ⟨((claim_C6_set_pixel (fun _ => 0) 10 10 255).1 (by norm_num [CANVAS_WIDTH])
      (by norm_num [CANVAS_HEIGHT])).1,
   (claim_C6_set_pixel (fun _ => 0) 2000 0 7).2
     (Or.inl (by norm_num [CANVAS_WIDTH]))⟩

/-- C7: `process_datagrams` on an established connection emits a pixel
exactly for each 5-byte datagram, parsed as `(x: u16 NE, y: u16 NE,
color: u8)` (native order on the x86_64 target is little-endian); datagrams
of any other length produce nothing, and nothing is emitted on a
non-established connection. -/
theorem claim_C7_datagram_parsing :
    (∀ (d : List Nat) (rest : List (List Nat)), d.length = 5 →
      process_datagrams true (d :: rest) =
        parsePixelDatagram d :: process_datagrams true rest) ∧
    (∀ (d : List Nat) (rest : List (List Nat)), d.length ≠ 5 →
      process_datagrams true (d :: rest) = process_datagrams true rest) ∧
    (∀ b0 b1 b2 b3 b4 : Nat,
      parsePixelDatagram [b0, b1, b2, b3, b4] =
        ⟨b0 + 256 * b1, b2 + 256 * b3, b4⟩) ∧
    (∀ dgrams : List (List Nat), process_datagrams false dgrams = []) ∧
    (∀ dgrams : List (List Nat),
      process_datagrams true dgrams =
        (dgrams.filter (fun d => d.length == 5)).map parsePixelDatagram) := by
  refine ⟨?_, ?_, ?_, ?_, ?_⟩
  · intro d rest h
    simp [process_datagrams, processDatagramLoop, h]
  · intro d rest h
    simp [process_datagrams, processDatagramLoop, h]
  · intro b0 b1 b2 b3 b4
    rfl
  · intro dgrams
    rfl
  · intro dgrams
    induction dgrams with
    | nil => rfl
    | cons d rest ih =>
      by_cases h : d.length = 5
      · simp [process_datagrams, processDatagramLoop, h] at *
        exact ih
      · simp [process_datagrams, processDatagramLoop, h] at *
        exact ih

theorem claim_C7_datagram_parsing_witness :
    process_datagrams true ([1, 0, 2, 0, 9] :: []) =
      parsePixelDatagram [1, 0, 2, 0, 9] :: process_datagrams true [] ∧
    process_datagrams true ([1, 2, 3] :: []) = process_datagrams true [] :=
  ⟨claim_C7_datagram_parsing.1 [1, 0, 2, 0, 9] [] (by norm_num),
   claim_C7_datagram_parsing.2.1 [1, 2, 3] [] (by norm_num)⟩

/-- C10: for `local_id < 64 * COOLDOWN_ARRAY_LEN` the word index
`local_id >> 6` is within the bitset, so `is_on_cooldown`, `set_cooldown`
and `add_cooldown` never reach their out-of-bounds panic (the `none`
branch); the precondition is what makes the unchecked indexing total. -/
theorem claim_C10_bitset_index_bounds (id : Nat) (hid : id < 64 * COOLDOWN_ARRAY_LEN) :
    id >>> 6 < COOLDOWN_ARRAY_LEN ∧
    (∀ a : CooldownArray, (a.is_on_cooldown id).isSome) ∧
    (∀ a : CooldownArray, (a.set_cooldown id).isSome) ∧
    (∀ tw : TimingWheel, tw.current_tick < TIMING_WHEEL_TICKS →
      (tw.add_cooldown id).isSome) ∧
    ((CooldownArray.new.is_on_cooldown (64 * COOLDOWN_ARRAY_LEN)).isSome = false) := by
  have h6 := shiftRight6_lt id hid
  refine ⟨h6, ?_, ?_, ?_, ?_⟩
  · intro a
    rw [CooldownArray.is_on_cooldown, dif_pos h6]
    rfl
  · intro a
    rw [CooldownArray.set_cooldown, dif_pos h6]
    rfl
  · intro tw hct
    rw [TimingWheel.add_cooldown, dif_pos hct]
    have hset : (tw.wheel ⟨tw.current_tick, hct⟩).set_cooldown id =
        some ⟨Function.update (tw.wheel ⟨tw.current_tick, hct⟩).bits ⟨id >>> 6, h6⟩
          ((tw.wheel ⟨tw.current_tick, hct⟩).bits ⟨id >>> 6, h6⟩ |||
            (1 <<< (id &&& 63)))⟩ := by
      rw [CooldownArray.set_cooldown, dif_pos h6]
    rw [hset]
    rfl
  · decide

theorem claim_C10_bitset_index_bounds_witness :
    ((CooldownArray.new).is_on_cooldown 65535).isSome ∧
    ((CooldownArray.new).set_cooldown 65535).isSome ∧
    ((TimingWheel.new).add_cooldown 65535).isSome :=
  ⟨(claim_C10_bitset_index_bounds 65535 (by norm_num [COOLDOWN_ARRAY_LEN])).2.1 _,
   (claim_C10_bitset_index_bounds 65535 (by norm_num [COOLDOWN_ARRAY_LEN])).2.2.1 _,
   (claim_C10_bitset_index_bounds 65535 (by norm_num [COOLDOWN_ARRAY_LEN])).2.2.2.1
     TimingWheel.new (by norm_num [TimingWheel.new, TIMING_WHEEL_TICKS])⟩

/-- C3: from a state where `set_cooldown(id)` and `add_cooldown(id)` have
just been called (the master bit is set, and within the wheel exactly the
slot at `current_tick` holds the bit) and no other operation touches `id`,
the user stays on cooldown for every tick count strictly below
`TIMING_WHEEL_TICKS` and is off cooldown after exactly
`TIMING_WHEEL_TICKS` ticks. -/
theorem claim_C3_cooldown_expiry (master : CooldownArray) (tw : TimingWheel) (id : Nat)
    (hid : id < 64 * COOLDOWN_ARRAY_LEN)
    (hct : tw.current_tick < TIMING_WHEEL_TICKS)
    (hmaster : master.is_on_cooldown id = some true)
    (hslots : ∀ j : Fin TIMING_WHEEL_TICKS,
      (tw.wheel j).is_on_cooldown id = some (decide (j.val = tw.current_tick))) :
    (∀ k, k < TIMING_WHEEL_TICKS →
      (TimingWheel.tickN k tw master).2.is_on_cooldown id = some true) ∧
    (TimingWheel.tickN TIMING_WHEEL_TICKS tw master).2.is_on_cooldown id = some false := by
  have h6 := shiftRight6_lt id hid
  have hm : (master.bits ⟨id >>> 6, h6⟩).testBit (id &&& 63) = true := by
    have h1 := hmaster
    rw [CooldownArray.is_on_cooldown_eq master id h6] at h1
    exact Option.some.inj h1
  have hmod : (tw.current_tick + TIMING_WHEEL_TICKS) % TIMING_WHEEL_TICKS =
      tw.current_tick := by
    simp only [TIMING_WHEEL_TICKS] at *
    omega
  have hs : ∀ j : Fin TIMING_WHEEL_TICKS,
      ((tw.wheel j).bits ⟨id >>> 6, h6⟩).testBit (id &&& 63) =
        decide (j.val = (tw.current_tick + TIMING_WHEEL_TICKS) % TIMING_WHEEL_TICKS) := by
    intro j
    have h1 := hslots j
    rw [CooldownArray.is_on_cooldown_eq _ id h6] at h1
    rw [hmod]
    exact Option.some.inj h1
  have hmain := tickN_expiry id h6 TIMING_WHEEL_TICKS tw master
    (by norm_num [TIMING_WHEEL_TICKS]) (Nat.le_refl _) hct hm hs
  constructor
  · intro k hk
    rw [CooldownArray.is_on_cooldown_eq _ id h6, hmain.1 k hk]
  · rw [CooldownArray.is_on_cooldown_eq _ id h6, hmain.2]

set_option maxRecDepth 8000 in
theorem claim_C3_cooldown_expiry_witness :
    (TimingWheel.tickN 299
      ⟨fun s => if s.val = 0 then ⟨fun w => if w.val = 0 then 1 <<< 55 else 0⟩
        else CooldownArray.new, 0⟩
      ⟨fun w => if w.val = 0 then 1 <<< 55 else 0⟩).2.is_on_cooldown 55 = some true ∧
    (TimingWheel.tickN TIMING_WHEEL_TICKS
      ⟨fun s => if s.val = 0 then ⟨fun w => if w.val = 0 then 1 <<< 55 else 0⟩
        else CooldownArray.new, 0⟩
      ⟨fun w => if w.val = 0 then 1 <<< 55 else 0⟩).2.is_on_cooldown 55 = some false :=
  ⟨(claim_C3_cooldown_expiry _ _ 55 (by norm_num [COOLDOWN_ARRAY_LEN]) (by decide)
      (by decide) (by decide)).1 299 (by norm_num [TIMING_WHEEL_TICKS]),
   (claim_C3_cooldown_expiry _ _ 55 (by norm_num [COOLDOWN_ARRAY_LEN]) (by decide)
      (by decide) (by decide)).2⟩

/-- C4: on a fresh ring, `push` fails exactly when
`tail.wrapping_sub(head) ≥ SPSC_CAPACITY`, `pop` is empty exactly when
`head = tail`, and over any sequential run with at most `SPSC_CAPACITY`
pushes the successfully popped values are a prefix, in order, of the
successfully pushed values. -/
theorem claim_C4_spsc_fifo (α : Type) :
    (∀ (q : SpscRingBuffer α) (v : α),
      ((q.push v).2 = false ↔ SPSC_CAPACITY ≤ wrappingSub q.tail q.head)) ∧
    (∀ q : SpscRingBuffer α, ((q.pop).2 = none ↔ q.head = q.tail)) ∧
    (∀ (ops : List (SpscOp α)) (junk : Fin SPSC_CAPACITY → α),
      numPushes ops ≤ SPSC_CAPACITY →
      (runOps (SpscRingBuffer.new junk) ops).2.1 =
        (runOps (SpscRingBuffer.new junk) ops).2.2.take
          (runOps (SpscRingBuffer.new junk) ops).2.1.length) := by
  refine ⟨?_, ?_, ?_⟩
  · intro q v
    rw [SpscRingBuffer.push]
    by_cases h : SPSC_CAPACITY ≤ wrappingSub q.tail q.head
    · simp [h]
    · simp [h]
  · intro q
    rw [SpscRingBuffer.pop]
    by_cases h : q.head = q.tail
    · simp [h]
    · simp [h]
  · intro ops junk hcount
    have h := runOps_prefix_aux ops (SpscRingBuffer.new junk) [] rfl (Nat.le_refl 0)
      (by simpa using hcount) (by intro i hi; simp at hi)
    simpa using h

set_option maxRecDepth 8000 in
theorem claim_C4_spsc_fifo_witness :
    (runOps (SpscRingBuffer.new (fun _ => 0))
      [SpscOp.pushOp 5, SpscOp.pushOp 7, SpscOp.popOp, SpscOp.popOp, SpscOp.popOp]).2.1 =
      (runOps (SpscRingBuffer.new (fun _ => 0))
        [SpscOp.pushOp 5, SpscOp.pushOp 7, SpscOp.popOp, SpscOp.popOp,
          SpscOp.popOp]).2.2.take
        (runOps (SpscRingBuffer.new (fun _ => 0))
          [SpscOp.pushOp 5, SpscOp.pushOp 7, SpscOp.popOp, SpscOp.popOp,
            SpscOp.popOp]).2.1.length :=
  (claim_C4_spsc_fifo Nat).2.2
    [SpscOp.pushOp 5, SpscOp.pushOp 7, SpscOp.popOp, SpscOp.popOp, SpscOp.popOp]
    (fun _ => 0) (by norm_num [numPushes, SPSC_CAPACITY])

/-- C8: when the loaded `ACTIVE_INDEX` differs from the last seen index,
`handle_broadcast` increments the `u32` counter; on counter 1 or a multiple
of 60 it queues the full compressed snapshot, in chunks of at most 1200
bytes, and syncs `last_sent_canvas` to the raw snapshot; otherwise the
queued payload is the chunking of the concatenation, in increasing index
order, of one `(index: u32 LE, color: u8)` record per differing linear
index, and `last_sent_canvas` ends equal to the raw snapshot in both
cases. -/
theorem claim_C8_handle_broadcast (st : WorkerBroadcastState) (active : Nat)
    (raw : Fin CANVAS_SIZE → Nat) (compressed : List Nat)
    (hchange : active ≠ st.last_broadcast_index) :
    (((st.broadcast_ticks + 1) % U32_MOD = 1 ∨
        (st.broadcast_ticks + 1) % U32_MOD % 60 = 0) →
      handle_broadcast st active raw compressed =
        ({ last_broadcast_index := active,
           broadcast_ticks := (st.broadcast_ticks + 1) % U32_MOD,
           last_sent_canvas := raw },
         chunksOf 1200 (by norm_num) compressed)) ∧
    (¬((st.broadcast_ticks + 1) % U32_MOD = 1 ∨
        (st.broadcast_ticks + 1) % U32_MOD % 60 = 0) →
      handle_broadcast st active raw compressed =
        ({ last_broadcast_index := active,
           broadcast_ticks := (st.broadcast_ticks + 1) % U32_MOD,
           last_sent_canvas := raw },
         chunksOf 1200 (by norm_num) (diffRecords st.last_sent_canvas raw))) ∧
    (∀ c ∈ (handle_broadcast st active raw compressed).2, c.length ≤ 1200) := by
  refine ⟨?_, ?_, ?_⟩
  · intro hfull
    rw [handle_broadcast, if_neg hchange, if_pos hfull]
  · intro hfull
    rw [handle_broadcast, if_neg hchange, if_neg hfull, diffLoop_fst, diffLoop_snd]
  · rw [handle_broadcast, if_neg hchange]
    by_cases hfull : (st.broadcast_ticks + 1) % U32_MOD = 1 ∨
        (st.broadcast_ticks + 1) % U32_MOD % 60 = 0
    · rw [if_pos hfull]
      intro c hc
      exact chunksOf_length_le 1200 (by norm_num) compressed c hc
    · rw [if_neg hfull]
      intro c hc
      exact chunksOf_length_le 1200 (by norm_num) _ c hc

theorem claim_C8_handle_broadcast_witness :
    handle_broadcast ⟨0, 0, fun _ => 0⟩ 1 (fun _ => 0) [] =
      ({ last_broadcast_index := 1,
         broadcast_ticks := ((0 : Nat) + 1) % U32_MOD,
         last_sent_canvas := fun _ => 0 },
       chunksOf 1200 (by norm_num) []) :=
  (claim_C8_handle_broadcast ⟨0, 0, fun _ => 0⟩ 1 (fun _ => 0) []
    (by norm_num)).1 (Or.inl (by norm_num [U32_MOD]))

/-- C9: one `handle_incoming_cqe` call pushes at most one `PixelWrite`: a
user on cooldown pushes nothing, otherwise only the first pixel of the
packet is pushed (subject to ring capacity), because the cooldown bit is set
before the remaining pixels are examined. -/
theorem claim_C9_at_most_one_push (cd : CooldownArray) (tw : TimingWheel)
    (q : SpscRingBuffer PixelDatagram) (user_id : Nat) (pixels : List PixelDatagram)
    (hid : user_id < 64 * COOLDOWN_ARRAY_LEN)
    (hct : tw.current_tick < TIMING_WHEEL_TICKS) :
    (handle_incoming_cqe cd tw q user_id pixels).isSome ∧
    (∀ cdf twf qf pushed,
      handle_incoming_cqe cd tw q user_id pixels = some (cdf, twf, qf, pushed) →
      pushed.length ≤ 1 ∧
      (cd.is_on_cooldown user_id = some true → qf = q ∧ pushed = []) ∧
      (∀ p rest, pixels = p :: rest → cd.is_on_cooldown user_id = some false →
        qf = (q.push p).1 ∧ pushed = (if (q.push p).2 then [p] else []))) := by
  have h6 := shiftRight6_lt user_id hid
  match pixels with
  | [] =>
    refine ⟨by rw [handle_incoming_cqe]; rfl, ?_⟩
    intro cdf twf qf pushed heq
    rw [handle_incoming_cqe, Option.some.injEq] at heq
    simp only [Prod.mk.injEq] at heq
    obtain ⟨-, -, hq, hp⟩ := heq
    refine ⟨by rw [← hp]; norm_num, fun _ => ⟨hq.symm, hp.symm⟩, ?_⟩
    intro p rest hpr
    exact List.noConfusion hpr
  | p :: rest =>
    cases htb : (cd.bits ⟨user_id >>> 6, h6⟩).testBit (user_id &&& 63) with
    | true =>
      have hc : cd.is_on_cooldown user_id = some true := by
        rw [CooldownArray.is_on_cooldown_eq cd user_id h6, htb]
      have hall := handle_incoming_cqe_on_cooldown cd tw q user_id hc (p :: rest)
      refine ⟨by rw [hall]; rfl, ?_⟩
      intro cdf twf qf pushed heq
      rw [hall, Option.some.injEq] at heq
      simp only [Prod.mk.injEq] at heq
      obtain ⟨-, -, hq, hp⟩ := heq
      refine ⟨by rw [← hp]; norm_num, fun _ => ⟨hq.symm, hp.symm⟩, ?_⟩
      intro p' rest' _ hfalse
      rw [hc, Option.some.injEq] at hfalse
      exact absurd hfalse (by simp)
    | false =>
      have hcf : cd.is_on_cooldown user_id = some false := by
        rw [CooldownArray.is_on_cooldown_eq cd user_id h6, htb]
      obtain ⟨cd1, hset⟩ : ∃ cd1, cd.set_cooldown user_id = some cd1 :=
        ⟨_, by rw [CooldownArray.set_cooldown, dif_pos h6]⟩
      have hslotset : (tw.wheel ⟨tw.current_tick, hct⟩).set_cooldown user_id =
          some ⟨Function.update (tw.wheel ⟨tw.current_tick, hct⟩).bits
            ⟨user_id >>> 6, h6⟩
            ((tw.wheel ⟨tw.current_tick, hct⟩).bits ⟨user_id >>> 6, h6⟩ |||
              (1 <<< (user_id &&& 63)))⟩ := by
        rw [CooldownArray.set_cooldown, dif_pos h6]
      obtain ⟨tw1, hadd⟩ : ∃ tw1, tw.add_cooldown user_id = some tw1 :=
        ⟨_, by rw [TimingWheel.add_cooldown, dif_pos hct, hslotset]⟩
      have hcd1 : cd1.is_on_cooldown user_id = some true :=
        set_cooldown_is_on cd user_id h6 cd1 hset
      have hrest := handle_incoming_cqe_on_cooldown cd1 tw1 (q.push p).1 user_id
        hcd1 rest
      have hmain : handle_incoming_cqe cd tw q user_id (p :: rest) =
          some (cd1, tw1, (q.push p).1, if (q.push p).2 then [p] else []) := by
        rw [handle_incoming_cqe]
        simp only [hcf, hset, hadd, hrest]
      refine ⟨by rw [hmain]; rfl, ?_⟩
      intro cdf twf qf pushed heq
      rw [hmain, Option.some.injEq] at heq
      simp only [Prod.mk.injEq] at heq
      obtain ⟨-, -, hq, hp⟩ := heq
      refine ⟨?_, ?_, ?_⟩
      · rw [← hp]
        cases hb : (q.push p).2 <;> simp [hb]
      · intro hc
        rw [hcf, Option.some.injEq] at hc
        exact absurd hc (by simp)
      · intro p' rest' hpr _
        have hpp : p = p' := (List.cons.injEq _ _ _ _ ▸ hpr).1
        subst hpp
        exact ⟨hq.symm, hp.symm⟩

theorem claim_C9_at_most_one_push_witness :
    (handle_incoming_cqe CooldownArray.new TimingWheel.new
      (SpscRingBuffer.new (fun _ => ⟨0, 0, 0⟩)) 3
      [⟨1, 2, 3⟩, ⟨4, 5, 6⟩]).isSome :=
  (claim_C9_at_most_one_push CooldownArray.new TimingWheel.new
    (SpscRingBuffer.new (fun _ => ⟨0, 0, 0⟩)) 3 [⟨1, 2, 3⟩, ⟨4, 5, 6⟩]
    (by norm_num [COOLDOWN_ARRAY_LEN]) (by decide)).1

end RedditPuzzle
